import Mathlib

/-!
Shallow embedding of the core of `issue.go` (a GitHub issue-tracker CLI) and
proofs about it.

Modelling conventions:
* Go strings are modelled as `List Char`.  All string data handled by the
  claims is ASCII, where Go's byte-wise operations (indexing, comparison,
  splitting) coincide with character-wise operations.
* Machine integers are modelled as `Nat`/`Int`.
* Pointers to optional values (`*int`, `*string`, `*github.User`, ...) are
  modelled as `Option`.
* Timestamps (`time.Time`) are modelled as `Nat` instants; `time.Time{}` (the
  zero time) is `0`, and `(*x).Local()` preserves the instant.
* Network endpoints (the GitHub client) are parameters of the definitions;
  paginated loops, which need not terminate for adversarial endpoints, take a
  fuel argument and return `none` when the fuel runs out.
* `sort.Strings`/`sort.Sort` are modelled with `List.insertionSort`; on the
  properties considered here (sortedness, permutation, and output on lists
  whose elements compare pairwise-distinct) every comparison sort agrees.
-/

set_option maxRecDepth 10000

/-- Convert a Lean string literal to the `List Char` model of a Go string. -/
def str (s : String) : List Char := s.data

/-- Byte-wise lexicographic `<=` on strings: Go's `<=` comparison (used via
`sort.Strings`, which orders by `<`). -/
def strLe : List Char → List Char → Bool
  | [], _ => true
  | _ :: _, [] => false
  | a :: as, b :: bs => if a = b then strLe as bs else decide (a < b)

/-- Byte-wise lexicographic `<` on strings: Go's `<` comparison (used by
`issuesByTitle.Less`). -/
def strLt : List Char → List Char → Bool
  | [], [] => false
  | [], _ :: _ => true
  | _ :: _, [] => false
  | a :: as, b :: bs => if a = b then strLt as bs else decide (a < b)

theorem strLe_refl (s : List Char) : strLe s s = true := by
  induction s with
  | nil => rfl
  | cons a as ih => simp [strLe, ih]

theorem strLe_total (s t : List Char) : strLe s t = true ∨ strLe t s = true := by
  induction s generalizing t with
  | nil => exact Or.inl rfl
  | cons a as ih =>
    cases t with
    | nil => exact Or.inr rfl
    | cons b bs =>
      by_cases hab : a = b
      · subst hab
        rcases ih bs with h | h
        · exact Or.inl (by simp [strLe, h])
        · exact Or.inr (by simp [strLe, h])
      · rcases lt_or_gt_of_ne hab with h | h
        · exact Or.inl (by simp [strLe, hab, h])
        · exact Or.inr (by simp [strLe, Ne.symm hab, h])

theorem strLe_trans (s t u : List Char) (h1 : strLe s t = true) (h2 : strLe t u = true) :
    strLe s u = true := by
  induction s generalizing t u with
  | nil => rfl
  | cons a as ih =>
    cases t with
    | nil => simp [strLe] at h1
    | cons b bs =>
      cases u with
      | nil => simp [strLe] at h2
      | cons c cs =>
        by_cases hab : a = b <;> by_cases hbc : b = c
        · subst hab; subst hbc
          simp only [strLe, if_pos rfl] at h1 h2 ⊢
          exact ih bs cs h1 h2
        · subst hab
          simp only [strLe, if_pos rfl, if_neg hbc, decide_eq_true_eq] at h2 ⊢
          simp [strLe, hbc, h2]
        · subst hbc
          simp only [strLe, if_neg hab, decide_eq_true_eq] at h1
          simp [strLe, hab, h1]
        · simp only [strLe, if_neg hab, if_neg hbc, decide_eq_true_eq] at h1 h2
          have hac : a < c := lt_trans h1 h2
          simp [strLe, ne_of_lt hac, hac]

theorem strLe_antisymm (s t : List Char) (h1 : strLe s t = true) (h2 : strLe t s = true) :
    s = t := by
  induction s generalizing t with
  | nil =>
    cases t with
    | nil => rfl
    | cons b bs => simp [strLe] at h2
  | cons a as ih =>
    cases t with
    | nil => simp [strLe] at h1
    | cons b bs =>
      by_cases hab : a = b
      · subst hab
        simp only [strLe, if_pos rfl] at h1 h2
        exact congrArg _ (ih bs h1 h2)
      · simp only [strLe, if_neg hab, if_neg (Ne.symm hab), decide_eq_true_eq] at h1 h2
        exact absurd h2 (not_lt_of_gt h1)

/-- The lexicographic order as a `Prop` relation, for use with
`List.insertionSort` (the model of `sort.Strings`). -/
def lexLe (s t : List Char) : Prop := strLe s t = true

instance : DecidableRel lexLe := fun s t => Bool.decEq (strLe s t) true

instance : IsTotal (List Char) lexLe := ⟨strLe_total⟩

instance : IsTrans (List Char) lexLe := ⟨strLe_trans⟩

instance : IsAntisymm (List Char) lexLe := ⟨strLe_antisymm⟩

theorem strLt_asymm (s t : List Char) (h : strLt s t = true) : strLt t s = false := by
  induction s generalizing t with
  | nil =>
    cases t with
    | nil => rfl
    | cons b bs => rfl
  | cons a as ih =>
    cases t with
    | nil => simp [strLt] at h
    | cons b bs =>
      by_cases hab : a = b
      · subst hab
        simp only [strLt, if_pos rfl] at h ⊢
        exact ih bs h
      · simp only [strLt, if_neg hab, decide_eq_true_eq] at h
        simp [strLt, Ne.symm hab, not_lt_of_gt h]

theorem strLt_trans (s t u : List Char) (h1 : strLt s t = true) (h2 : strLt t u = true) :
    strLt s u = true := by
  induction s generalizing t u with
  | nil =>
    cases t with
    | nil => exact absurd h1 (by simp [strLt])
    | cons b bs =>
      cases u with
      | nil => simp [strLt] at h2
      | cons c cs => rfl
  | cons a as ih =>
    cases t with
    | nil => simp [strLt] at h1
    | cons b bs =>
      cases u with
      | nil => simp [strLt] at h2
      | cons c cs =>
        by_cases hab : a = b <;> by_cases hbc : b = c
        · subst hab; subst hbc
          simp only [strLt, if_pos rfl] at h1 h2 ⊢
          exact ih bs cs h1 h2
        · subst hab
          simp only [strLt, if_pos rfl, if_neg hbc, decide_eq_true_eq] at h2 ⊢
          simp [strLt, hbc, h2]
        · subst hbc
          simp only [strLt, if_neg hab, decide_eq_true_eq] at h1
          simp [strLt, hab, h1]
        · simp only [strLt, if_neg hab, if_neg hbc, decide_eq_true_eq] at h1 h2
          have hac : a < c := lt_trans h1 h2
          simp [strLt, ne_of_lt hac, hac]

theorem strLt_connex (s t : List Char) (h : s ≠ t) :
    strLt s t = true ∨ strLt t s = true := by
  induction s generalizing t with
  | nil =>
    cases t with
    | nil => exact absurd rfl h
    | cons b bs => exact Or.inl rfl
  | cons a as ih =>
    cases t with
    | nil => exact Or.inr rfl
    | cons b bs =>
      by_cases hab : a = b
      · subst hab
        have hne : as ≠ bs := fun he => h (by rw [he])
        rcases ih bs hne with hlt | hlt
        · exact Or.inl (by simp [strLt, hlt])
        · exact Or.inr (by simp [strLt, hlt])
      · rcases lt_or_gt_of_ne hab with hlt | hlt
        · exact Or.inl (by simp [strLt, hab, hlt])
        · exact Or.inr (by simp [strLt, Ne.symm hab, hlt])

theorem strLt_irrefl (s : List Char) : strLt s s = false := by
  induction s with
  | nil => rfl
  | cons a as ih => simp [strLt, ih]

/-- `strings.Split(t, "\n")`: split on newline characters.  Never returns the
empty list. -/
def splitNL : List Char → List (List Char)
  | [] => [[]]
  | c :: t =>
    if c = '\n' then [] :: splitNL t
    else
      match splitNL t with
      | [] => [[c]]
      | l :: ls => (c :: l) :: ls

/-- `strings.Replace(t, "\r\n", "\n", -1)`: normalize CRLF line endings
(non-overlapping, left to right). -/
def replaceCRLF : List Char → List Char
  | '\r' :: '\n' :: t => '\n' :: replaceCRLF t
  | c :: t => c :: replaceCRLF t
  | [] => []

/-- `strings.LastIndex(s, c)` for a single-character needle: index of the last
occurrence, or `none` (Go returns `-1`). -/
def lastIndexOf (c : Char) : List Char → Option Nat
  | [] => none
  | a :: t =>
    match lastIndexOf c t with
    | some i => some (i + 1)
    | none => if a = c then some 0 else none

/-- The white-space class used by `strings.Fields` and `strings.TrimSpace`
(`unicode.IsSpace`), restricted to the ASCII space characters. -/
def isSpaceGo (c : Char) : Bool :=
  c = ' ' || c = '\t' || c = '\n' || c = '\r' || c = '\x0b' || c = '\x0c'

/-- `strings.TrimSpace`: drop white space from both ends. -/
def trimSpace (s : List Char) : List Char :=
  ((s.dropWhile isSpaceGo).reverse.dropWhile isSpaceGo).reverse

theorem length_dropWhile_le (p : Char → Bool) (l : List Char) :
    (l.dropWhile p).length ≤ l.length := by
  induction l with
  | nil => simp [List.dropWhile]
  | cons a t ih =>
    by_cases h : p a
    · simp only [List.dropWhile_cons, h, if_true]
      exact Nat.le_succ_of_le ih
    · simp [List.dropWhile_cons, h]

/-- The splitting loop of `fields`; the fuel argument makes it structural
(and so kernel-computable), `fuel = s.length + 1` always suffices since every
step consumes at least one character. -/
def fieldsAux : Nat → List Char → List (List Char)
  | 0, _ => []
  | fuel + 1, s =>
    match s with
    | [] => []
    | c :: t =>
      if isSpaceGo c then fieldsAux fuel t
      else (c :: t.takeWhile (fun d => !isSpaceGo d)) ::
        fieldsAux fuel (t.dropWhile (fun d => !isSpaceGo d))

/-- `strings.Fields`: split around runs of white space; no empty fields. -/
def fields (s : List Char) : List (List Char) := fieldsAux (s.length + 1) s

/-- `strings.Split(val, ",")` for label lists. -/
def splitComma : List Char → List (List Char)
  | [] => [[]]
  | c :: t =>
    if c = ',' then [] :: splitComma t
    else
      match splitComma t with
      | [] => [[c]]
      | l :: ls => (c :: l) :: ls

/-- Join a list of strings with a separator; `strings.Join` and the
accumulation pattern `out += "\n" + prefix` of `wrap`. -/
def joinWith (sep : List Char) : List (List Char) → List Char
  | [] => []
  | [x] => x
  | x :: y :: xs => x ++ sep ++ joinWith sep (y :: xs)

/-- The ASCII digit character for `d % 10` (the digit bytes produced by Go's
integer and timestamp formatting; total on `Nat` for convenience, and equal to
`'0' + d` on actual digits `d < 10`). -/
def digitChar (d : Nat) : Char := Char.ofNat (48 + d % 10)

/-- Digit recursion for `natToChars`; the fuel argument makes it structural
(and so kernel-computable), `fuel = n + 1` always suffices. -/
def natToCharsAux : Nat → Nat → List Char
  | 0, _ => []
  | fuel + 1, n =>
    if n < 10 then [digitChar n]
    else natToCharsAux fuel (n / 10) ++ [digitChar (n % 10)]

/-- `fmt.Sprint` of a non-negative integer: decimal digits, no padding. -/
def natToChars (n : Nat) : List Char := natToCharsAux (n + 1) n

/-- A timestamp rendered in a fixed-width sortable text form: `w` decimal
digits, most significant first, zero-padded.  This models
`Format(time.RFC3339)` used as the sort-key prefix of timeline entries: for a
uniform time zone offset and timestamps below the width bound, RFC3339 text
compares lexicographically exactly as these fixed-width numerals do. -/
def padNum : Nat → Nat → List Char
  | 0, _ => []
  | w + 1, n => digitChar (n / 10 ^ w) :: padNum w (n % 10 ^ w)

/-- Read back the timestamp encoded in the first `w` characters of a rendered
timeline entry. -/
def readKey (w : Nat) (s : List Char) : Nat :=
  (s.take w).foldl (fun acc c => acc * 10 + (c.toNat - 48)) 0

/-- Find the first newline and return the text after it, if any. -/
def stripKeyAux : List Char → Option (List Char)
  | [] => none
  | c :: t => if c = '\n' then some t else stripKeyAux t

/-- `s[strings.Index(s, "\n")+1:]`: the text of a timeline entry after its
sort-key line (the whole string when no newline occurs, since Go's `Index`
returns `-1` and `s[0:] = s`). -/
def stripKey (s : List Char) : List Char := (stripKeyAux s).getD s


theorem splitNL_ne_nil (s : List Char) : splitNL s ≠ [] := by
  cases s with
  | nil => simp [splitNL]
  | cons c t =>
    by_cases hc : c = '\n'
    · simp [splitNL, hc]
    · simp only [splitNL, if_neg hc]
      rcases splitNL t with _ | ⟨l, ls⟩ <;> simp

theorem splitNL_append_nl (x z : List Char) :
    splitNL (x ++ '\n' :: z) = splitNL x ++ splitNL z := by
  induction x with
  | nil => simp [splitNL]
  | cons c t ih =>
    by_cases hc : c = '\n'
    · simp [splitNL, hc, ih]
    · rw [List.cons_append]
      simp only [splitNL, if_neg hc, ih]
      rcases h : splitNL t with _ | ⟨l, ls⟩
      · exact absurd h (splitNL_ne_nil t)
      · simp

theorem splitNL_no_nl (x : List Char) (hx : ∀ c ∈ x, c ≠ '\n') : splitNL x = [x] := by
  induction x with
  | nil => rfl
  | cons c t ih =>
    have hc : c ≠ '\n' := hx c (by simp)
    simp only [splitNL, if_neg hc, ih (fun d hd => hx d (by simp [hd]))]

theorem splitNL_append_no_nl (x b : List Char) (hx : ∀ c ∈ x, c ≠ '\n')
    (hh : List Char) (tt : List (List Char)) (hb : splitNL b = hh :: tt) :
    splitNL (x ++ b) = (x ++ hh) :: tt := by
  induction x with
  | nil => simpa using hb
  | cons c t ih =>
    have hc : c ≠ '\n' := hx c (by simp)
    rw [List.cons_append]
    simp only [splitNL, if_neg hc, ih (fun d hd => hx d (by simp [hd]))]
    simp

theorem mem_splitNL_no_nl (s : List Char) : ∀ l ∈ splitNL s, ∀ c ∈ l, c ≠ '\n' := by
  induction s with
  | nil => simp [splitNL]
  | cons a t ih =>
    by_cases ha : a = '\n'
    · simp only [splitNL, if_pos ha]
      intro l hl
      rcases List.mem_cons.mp hl with hl | hl
      · simp [hl]
      · exact ih l hl
    · simp only [splitNL, if_neg ha]
      rcases h : splitNL t with _ | ⟨x, xs⟩
      · exact absurd h (splitNL_ne_nil t)
      · intro l hl
        rcases List.mem_cons.mp hl with hl | hl
        · subst hl
          intro c hc
          rcases List.mem_cons.mp hc with hc | hc
          · subst hc; exact ha
          · exact ih x (by simp [h]) c hc
        · exact ih l (by simp [h, hl])

theorem digitChar_ne_nl (d : Nat) : digitChar d ≠ '\n' := by
  have haux : ∀ r < 10, Char.ofNat (48 + r) ≠ '\n' := by decide
  exact haux (d % 10) (Nat.mod_lt d (by omega))

theorem digitChar_lt_iff : ∀ a < 10, ∀ b < 10, (digitChar a < digitChar b ↔ a < b) := by
  decide

theorem digitChar_inj : ∀ a < 10, ∀ b < 10, digitChar a = digitChar b → a = b := by
  decide

theorem digitChar_toNat : ∀ a < 10, (digitChar a).toNat = 48 + a := by
  decide

theorem padNum_length (w n : Nat) : (padNum w n).length = w := by
  induction w generalizing n with
  | zero => rfl
  | succ w ih => simp [padNum, ih]

theorem padNum_no_nl (w n : Nat) : ∀ c ∈ padNum w n, c ≠ '\n' := by
  induction w generalizing n with
  | zero => simp [padNum]
  | succ w ih =>
    intro c hc
    rcases List.mem_cons.mp hc with h | h
    · subst h; exact digitChar_ne_nl _
    · exact ih _ c h

theorem padNum_le_mono (w : Nat) : ∀ a b, a < 10 ^ w → b < 10 ^ w →
    strLe (padNum w a) (padNum w b) = true → a ≤ b := by
  induction w with
  | zero =>
    intro a b ha hb _
    simp only [pow_zero, Nat.lt_one_iff] at ha hb
    omega
  | succ w ih =>
    intro a b ha hb h
    have hpow : 0 < 10 ^ w := Nat.pos_pow_of_pos w (by omega)
    rw [pow_succ] at ha hb
    have hqa : a / 10 ^ w < 10 := (Nat.div_lt_iff_lt_mul hpow).mpr (by rw [Nat.mul_comm]; exact ha)
    have hqb : b / 10 ^ w < 10 := (Nat.div_lt_iff_lt_mul hpow).mpr (by rw [Nat.mul_comm]; exact hb)
    have hda : 10 ^ w * (a / 10 ^ w) + a % 10 ^ w = a := Nat.div_add_mod a (10 ^ w)
    have hdb : 10 ^ w * (b / 10 ^ w) + b % 10 ^ w = b := Nat.div_add_mod b (10 ^ w)
    have hma : a % 10 ^ w < 10 ^ w := Nat.mod_lt a hpow
    have hmb : b % 10 ^ w < 10 ^ w := Nat.mod_lt b hpow
    simp only [padNum, strLe] at h
    split at h
    · next heq =>
      have hq : a / 10 ^ w = b / 10 ^ w := digitChar_inj _ hqa _ hqb heq
      have hr : a % 10 ^ w ≤ b % 10 ^ w := ih _ _ hma hmb h
      rw [hq] at hda
      omega
    · next hne =>
      have hlt : a / 10 ^ w < b / 10 ^ w :=
        (digitChar_lt_iff _ hqa _ hqb).mp (by simpa using h)
      have hmul : 10 ^ w * (a / 10 ^ w) + 10 ^ w ≤ 10 ^ w * (b / 10 ^ w) := by
        have h2 : 10 ^ w * (a / 10 ^ w + 1) ≤ 10 ^ w * (b / 10 ^ w) :=
          Nat.mul_le_mul_left _ hlt
        rw [Nat.mul_add, Nat.mul_one] at h2
        exact h2
      omega

theorem strLe_append_of_eq_length (x : List Char) : ∀ y r s, x.length = y.length →
    strLe (x ++ r) (y ++ s) = true → strLe x y = true := by
  induction x with
  | nil =>
    intro y r s hlen _
    have : y = [] := List.eq_nil_of_length_eq_zero hlen.symm
    subst this
    rfl
  | cons a as ih =>
    intro y r s hlen h
    cases y with
    | nil => simp at hlen
    | cons b bs =>
      simp only [List.cons_append, strLe] at h ⊢
      by_cases hab : a = b
      · rw [if_pos hab] at h ⊢
        exact ih bs r s (by simpa using hlen) h
      · rw [if_neg hab] at h ⊢
        exact h

theorem padNum_foldl (w : Nat) : ∀ n acc, n < 10 ^ w →
    (padNum w n).foldl (fun acc c => acc * 10 + (c.toNat - 48)) acc = acc * 10 ^ w + n := by
  induction w with
  | zero =>
    intro n acc hn
    simp only [pow_zero, Nat.lt_one_iff] at hn
    simp [padNum, hn]
  | succ w ih =>
    intro n acc hn
    have hpow : 0 < 10 ^ w := Nat.pos_pow_of_pos w (by omega)
    rw [pow_succ] at hn
    have hq : n / 10 ^ w < 10 := (Nat.div_lt_iff_lt_mul hpow).mpr (by rw [Nat.mul_comm]; exact hn)
    have hm : n % 10 ^ w < 10 ^ w := Nat.mod_lt n hpow
    have hd : 10 ^ w * (n / 10 ^ w) + n % 10 ^ w = n := Nat.div_add_mod n (10 ^ w)
    simp only [padNum, List.foldl_cons]
    rw [digitChar_toNat _ hq, ih _ _ hm, Nat.add_sub_cancel_left]
    calc (acc * 10 + n / 10 ^ w) * 10 ^ w + n % 10 ^ w
        = acc * (10 * 10 ^ w) + (10 ^ w * (n / 10 ^ w) + n % 10 ^ w) := by ring
      _ = acc * 10 ^ (w + 1) + n := by rw [hd]; ring

theorem readKey_padNum (w n : Nat) (rest : List Char) (hn : n < 10 ^ w) :
    readKey w (padNum w n ++ rest) = n := by
  have hlen : (padNum w n).length = w := padNum_length w n
  have htake : (padNum w n ++ rest).take w = padNum w n := by
    have h2 := List.take_left (padNum w n) rest
    rwa [hlen] at h2
  rw [readKey, htake]
  simpa using padNum_foldl w n 0 hn

theorem stripKeyAux_no_nl (x : List Char) (hx : ∀ c ∈ x, c ≠ '\n') (b : List Char) :
    stripKeyAux (x ++ '\n' :: b) = some b := by
  induction x with
  | nil => simp [stripKeyAux]
  | cons c t ih =>
    have hc : c ≠ '\n' := hx c (by simp)
    rw [List.cons_append]
    simp only [stripKeyAux, if_neg hc]
    exact ih (fun d hd => hx d (by simp [hd]))

theorem stripKey_key (x : List Char) (hx : ∀ c ∈ x, c ≠ '\n') (b : List Char) :
    stripKey (x ++ '\n' :: b) = b := by
  rw [stripKey, stripKeyAux_no_nl x hx b]
  rfl

theorem lastIndexOf_lt_length (c : Char) (s : List Char) :
    ∀ i, lastIndexOf c s = some i → i < s.length := by
  induction s with
  | nil => intro i h; simp [lastIndexOf] at h
  | cons a t ih =>
    intro i h
    simp only [lastIndexOf] at h
    rcases h2 : lastIndexOf c t with _ | j
    · rw [h2] at h
      by_cases hac : a = c
      · rw [if_pos hac] at h
        injection h with h
        subst h
        simp
      · rw [if_neg hac] at h
        exact absurd h (by simp)
    · rw [h2] at h
      injection h with h
      subst h
      have := ih j h2
      simp only [List.length_cons]
      omega

/-- The break position of one iteration of `wrap`'s inner loop:
`i := strings.LastIndex(s[:max], " "); if i < 0 { i = max - 1 }; i++`.
So: one past the last space among the first `maxw` characters if a space
occurs there, else exactly `maxw`. -/
def breakIdx (maxw : Nat) (s : List Char) : Nat :=
  match lastIndexOf ' ' (s.take maxw) with
  | some j => j + 1
  | none => maxw

/-- The inner loop of `wrap` (`for len(s) > max { ... }`), one input line at a
time.  `fuel` bounds the number of iterations; the caller supplies
`fuel = s.length`, which suffices whenever `1 ≤ maxw` (for `max = 0` the Go
loop does not terminate, re-emitting the empty chunk forever). -/
def wrapLineAux (maxw : Nat) (pfx : List Char) : Nat → List Char → List Char
  | 0, s => s
  | fuel + 1, s =>
    if s.length > maxw then
      s.take (breakIdx maxw s) ++
        '\n' :: (pfx ++ wrapLineAux maxw pfx fuel (s.drop (breakIdx maxw s)))
    else s

/-- Wrap a single (newline-free) input line, as `wrap`'s inner loop does:
break after the last space among the first `maxw` characters when one exists,
otherwise hard-break at exactly `maxw` (Go computes `i = max - 1` then `i++`),
emitting `"\n" + prefix` between chunks. -/
def wrapLine (maxw : Nat) (pfx : List Char) (s : List Char) : List Char :=
  wrapLineAux maxw pfx s.length s

/-- `wrap(t, prefix)` from `issue.go`: normalize CRLF, split into lines, wrap
each line to width `maxw` (the Go code uses 70, or the `-w` flag in acme
mode), joining everything with `"\n" + prefix`. -/
def wrap (t pfx : List Char) (maxw : Nat) : List Char :=
  joinWith ('\n' :: pfx) ((splitNL (replaceCRLF t)).map (wrapLine maxw pfx))

theorem wrapLineAux_lines (maxw : Nat) (pfx : List Char) (hmax : 1 ≤ maxw)
    (hpfx : ∀ c ∈ pfx, c ≠ '\n') :
    ∀ fuel s, s.length ≤ fuel → (∀ c ∈ s, c ≠ '\n') →
    ∃ h t, splitNL (wrapLineAux maxw pfx fuel s) = h :: t ∧ h.length ≤ maxw ∧
      ∀ l ∈ t, ∃ cch, l = pfx ++ cch ∧ cch.length ≤ maxw := by
  intro fuel
  induction fuel with
  | zero =>
    intro s hlen _
    have : s = [] := List.eq_nil_of_length_eq_zero (Nat.le_zero.mp hlen)
    subst this
    exact ⟨[], [], by simp [wrapLineAux, splitNL], by simp [hmax], by simp⟩
  | succ fuel ih =>
    intro s hlen hnl
    by_cases hbig : s.length > maxw
    · have hi : 1 ≤ breakIdx maxw s ∧ breakIdx maxw s ≤ maxw := by
        rw [breakIdx]
        rcases hj : lastIndexOf ' ' (s.take maxw) with _ | j
        · simp only
          omega
        · simp only
          have hjlt := lastIndexOf_lt_length ' ' (s.take maxw) j hj
          have hjle : (s.take maxw).length ≤ maxw := List.length_take_le _ _
          omega
      rcases hi with ⟨hi1, hi2⟩
      set i := breakIdx maxw s with hidef
      have hout : wrapLineAux maxw pfx (fuel + 1) s =
          s.take i ++ '\n' :: (pfx ++ wrapLineAux maxw pfx fuel (s.drop i)) := by
        rw [wrapLineAux, if_pos hbig]
      have hdroplen : (s.drop i).length ≤ fuel := by
        rw [List.length_drop]
        omega
      have hdropnl : ∀ c ∈ s.drop i, c ≠ '\n' := fun c hc =>
        hnl c (List.mem_of_mem_drop hc)
      rcases ih (s.drop i) hdroplen hdropnl with ⟨h', t', hsplit', hh', ht'⟩
      have htakenl : ∀ c ∈ s.take i, c ≠ '\n' := fun c hc =>
        hnl c (List.mem_of_mem_take hc)
      have hpfxsplit : splitNL (pfx ++ wrapLineAux maxw pfx fuel (s.drop i)) =
          (pfx ++ h') :: t' :=
        splitNL_append_no_nl pfx _ hpfx h' t' hsplit' 
      refine ⟨s.take i, (pfx ++ h') :: t', ?_, ?_, ?_⟩
      · rw [hout, splitNL_append_nl, splitNL_no_nl _ htakenl, hpfxsplit]
        rfl
      · rw [List.length_take]
        omega
      · intro l hl
        rcases List.mem_cons.mp hl with hl | hl
        · exact ⟨h', hl, hh'⟩
        · exact ht' l hl
    · refine ⟨s, [], ?_, by omega, by simp⟩
      rw [wrapLineAux, if_neg hbig, splitNL_no_nl s hnl]

theorem joinWith_wrapLines (maxw : Nat) (pfx : List Char) (hmax : 1 ≤ maxw)
    (hpfx : ∀ c ∈ pfx, c ≠ '\n') :
    ∀ ps : List (List Char), (∀ p ∈ ps, ∀ c ∈ p, c ≠ '\n') →
    ∃ h t, splitNL (joinWith ('\n' :: pfx) (ps.map (wrapLine maxw pfx))) = h :: t ∧
      h.length ≤ maxw ∧ ∀ l ∈ t, ∃ cch, l = pfx ++ cch ∧ cch.length ≤ maxw := by
  intro ps
  induction ps with
  | nil =>
    intro _
    exact ⟨[], [], by simp [joinWith, splitNL], by simp, by simp⟩
  | cons p ps ih =>
    intro hnl
    cases ps with
    | nil =>
      simp only [List.map_cons, List.map_nil, joinWith]
      exact wrapLineAux_lines maxw pfx hmax hpfx p.length p le_rfl (hnl p (by simp))
    | cons p' ps' =>
      rcases ih (fun q hq c hc => hnl q (List.mem_cons_of_mem p hq) c hc) with
        ⟨h', t', hsplit', hh', ht'⟩
      rcases wrapLineAux_lines maxw pfx hmax hpfx p.length p le_rfl (hnl p (by simp)) with
        ⟨h, t, hsplit, hh, ht⟩
      refine ⟨h, t ++ (pfx ++ h') :: t', ?_, hh, ?_⟩
      · have hjw : joinWith ('\n' :: pfx) ((p :: p' :: ps').map (wrapLine maxw pfx)) =
            wrapLine maxw pfx p ++
              '\n' :: (pfx ++ joinWith ('\n' :: pfx) ((p' :: ps').map (wrapLine maxw pfx))) := by
          simp [joinWith, List.map_cons]
        rw [hjw, splitNL_append_nl, splitNL_append_no_nl pfx _ hpfx h' t' hsplit']
        simp only [wrapLine]
        rw [hsplit]
        simp
      · intro l hl
        rcases List.mem_append.mp hl with hl | hl
        · exact ht l hl
        · rcases List.mem_cons.mp hl with hl | hl
          · exact ⟨h', hl, hh'⟩
          · exact ht' l hl

/-- C2 (amended): `wrap` breaks each input line after the last space among
its first `maxw` characters when one exists, hard-breaking at exactly `maxw`
otherwise, and every continuation line (but not the first) begins with the
given prefix — but the prefix does not count against the width, so an output
line is either a chunk of at most `maxw` characters or the prefix followed by
such a chunk (hence up to `pfx.length + maxw` characters long).  In
particular wrapping `"aaaa bbbb cccc"` with prefix `"> "` and maximum 9
yields `"aaaa \n> bbbb cccc"`, whose second line has 11 characters — not at
most 9 as the claim stated (see `c2_counterexample`). -/
theorem c2_wrap_width_with_prefix (t pfx : List Char) (maxw : Nat) (hmax : 1 ≤ maxw)
    (hpfx : ∀ c ∈ pfx, c ≠ '\n') :
    ∀ l ∈ splitNL (wrap t pfx maxw),
      l.length ≤ maxw ∨ ∃ cch, l = pfx ++ cch ∧ cch.length ≤ maxw := by
  rcases joinWith_wrapLines maxw pfx hmax hpfx (splitNL (replaceCRLF t))
      (mem_splitNL_no_nl (replaceCRLF t)) with ⟨h, tl, hsplit, hh, htl⟩
  intro l hl
  rw [wrap, hsplit] at hl
  rcases List.mem_cons.mp hl with hl | hl
  · exact Or.inl (hl ▸ hh)
  · exact Or.inr (htl l hl)

/-- One response of a paginated endpoint: the returned items, the
`Response.NextPage` indicator, and whether the call returned a non-nil error.
On error Go's client may return an empty item slice; the model allows any. -/
structure Page (α : Type) where
  items : List α
  nextPage : Nat
  err : Bool
deriving DecidableEq

/-- The page loop shared by `searchIssues`, `listRepoIssues` and the comment
and event loops of `printIssue`/`toJSONWithComments`:

    for page := 1; ; {
      list, resp, err := call(page)
      all = append(all, list...)
      if err != nil { return all, err }
      if resp.NextPage < page { break }
      page = resp.NextPage
    }

`fuel` bounds the number of iterations (`none` = not finished within `fuel`;
the loop does not terminate against an endpoint that keeps answering
`NextPage >= page`).  The `Bool` result is the error flag. -/
def fetchPages {α : Type} (ep : Nat → Page α) : Nat → Nat → Option (List α × Bool)
  | 0, _ => none
  | fuel + 1, page =>
    let r := ep page
    if r.err then some (r.items, true)
    else if r.nextPage < page then some (r.items, false)
    else
      match fetchPages ep fuel r.nextPage with
      | none => none
      | some (rest, e) => some (r.items ++ rest, e)

/-- The pages the loop requests, in order, within `fuel` iterations. -/
def requestedPages {α : Type} (ep : Nat → Page α) : Nat → Nat → List Nat
  | 0, _ => []
  | fuel + 1, page =>
    let r := ep page
    if r.err then [page]
    else if r.nextPage < page then [page]
    else page :: requestedPages ep fuel r.nextPage

theorem fetchPages_halting {α : Type} (ep : Nat → Page α)
    (hNoErr : ∀ q, (ep q).err = false) :
    ∀ fuel start items e, fetchPages ep fuel start = some (items, e) →
    e = false ∧ ∃ ps plast, requestedPages ep fuel start = ps ++ [plast] ∧
      (ep plast).nextPage < plast ∧ (∀ q ∈ ps, q ≤ (ep q).nextPage) ∧
      items.length = (((ps ++ [plast]).map (fun q => (ep q).items.length)).sum) := by
  intro fuel
  induction fuel with
  | zero => intro start items e h; exact absurd h (by simp [fetchPages])
  | succ fuel ih =>
    intro start items e h
    rw [fetchPages] at h
    simp only [hNoErr start, if_false, Bool.false_eq_true] at h
    by_cases hnext : (ep start).nextPage < start
    · rw [if_pos hnext] at h
      injection h with h
      injection h with h1 h2
      subst h1; subst h2
      refine ⟨rfl, [], start, ?_, hnext, by simp, by simp⟩
      rw [requestedPages]
      simp [hNoErr start, hnext]
    · rw [if_neg hnext] at h
      rcases h2 : fetchPages ep fuel (ep start).nextPage with _ | ⟨rest, e'⟩
      · rw [h2] at h; exact absurd h (by simp)
      · rw [h2] at h
        injection h with h
        injection h with h1 he
        subst h1; subst he
        rcases ih (ep start).nextPage rest e' h2 with ⟨he', ps', plast', hreq', hlast', hmid', hlen'⟩
        subst he'
        refine ⟨rfl, start :: ps', plast', ?_, hlast', ?_, ?_⟩
        · rw [requestedPages]
          simp only [hNoErr start, if_false, Bool.false_eq_true, if_neg hnext, hreq']
          rfl
        · intro q hq
          rcases List.mem_cons.mp hq with hq | hq
          · subst hq; omega
          · exact hmid' q hq
        · simp only [List.cons_append, List.map_cons, List.sum_cons, List.length_append]
          omega

theorem fetchPages_error_keeps_items {α : Type} (ep : Nat → Page α) :
    ∀ fuel start items, fetchPages ep fuel start = some (items, true) →
    ∃ ps plast, requestedPages ep fuel start = ps ++ [plast] ∧
      (ep plast).err = true ∧
      (∀ q ∈ ps, (ep q).err = false ∧ q ≤ (ep q).nextPage) ∧
      items = (((ps ++ [plast]).map (fun q => (ep q).items)).flatten) := by
  intro fuel
  induction fuel with
  | zero => intro start items h; exact absurd h (by simp [fetchPages])
  | succ fuel ih =>
    intro start items h
    rw [fetchPages] at h
    by_cases herr : (ep start).err = true
    · rw [if_pos herr] at h
      injection h with h
      injection h with h1 _
      subst h1
      refine ⟨[], start, ?_, herr, by simp, by simp⟩
      rw [requestedPages]
      simp [herr]
    · rw [if_neg herr] at h
      by_cases hnext : (ep start).nextPage < start
      · rw [if_pos hnext] at h
        injection h with h
        injection h with h1 h2
        exact absurd h2.symm (by simp)
      · rw [if_neg hnext] at h
        rcases h2 : fetchPages ep fuel (ep start).nextPage with _ | ⟨rest, e'⟩
        · rw [h2] at h; exact absurd h (by simp)
        · rw [h2] at h
          injection h with h
          injection h with h1 he
          subst h1
          rcases ih (ep start).nextPage rest (he ▸ h2) with
            ⟨ps', plast', hreq', herr', hmid', hitems'⟩
          refine ⟨start :: ps', plast', ?_, herr', ?_, ?_⟩
          · rw [requestedPages]
            simp only [Bool.not_eq_true] at herr
            simp only [herr, Bool.false_eq_true, if_false, if_neg hnext, hreq']
            rfl
          · intro q hq
            rcases List.mem_cons.mp hq with hq | hq
            · subst hq
              exact ⟨by simpa using herr, by omega⟩
            · exact hmid' q hq
          · simp only [List.cons_append, List.map_cons, List.flatten_cons, hitems']

/-- `github.User`: only the `Login` field is used by `issue.go`. -/
structure GUser where
  login : Option (List Char)
deriving DecidableEq

/-- `github.Label`: only the `Name` field is used. -/
structure GLabel where
  name : Option (List Char)
deriving DecidableEq

/-- `github.Milestone`: only the `Title` field is used for rendering. -/
structure GMilestone where
  title : Option (List Char)
deriving DecidableEq

/-- `github.Issue` restricted to the fields `issue.go` reads.
`pullRequestLinks` models `issue.PullRequestLinks != nil` (the payload of the
links struct is never inspected). -/
structure GIssue where
  number : Option Int
  title : Option (List Char)
  state : Option (List Char)
  body : Option (List Char)
  htmlURL : Option (List Char)
  assignee : Option GUser
  user : Option GUser
  closedAt : Option Nat
  createdAt : Option Nat
  labels : List GLabel
  milestone : Option GMilestone
  pullRequestLinks : Bool
deriving DecidableEq

/-- `getInt` from `issue.go`: dereference a `*int`, defaulting to `0`. -/
def getInt (x : Option Int) : Int := x.getD 0

/-- `getString` from `issue.go`: dereference a `*string`, defaulting to `""`. -/
def getString (x : Option (List Char)) : List Char := x.getD []

/-- `getUserLogin` from `issue.go`: `""` when the user or its login is nil. -/
def getUserLogin (x : Option GUser) : List Char :=
  match x with
  | none => []
  | some u =>
    match u.login with
    | none => []
    | some l => l

/-- `getTime` from `issue.go`: the zero time when nil, else the same instant
(`Local()` changes only the representation). -/
def getTime (x : Option Nat) : Nat := x.getD 0

/-- `getMilestoneTitle` from `issue.go`: `""` when the milestone or its title
is nil. -/
def getMilestoneTitle (x : Option GMilestone) : List Char :=
  match x with
  | none => []
  | some m => m.title.getD []

/-- `getLabelNames` from `issue.go`: the label names, sorted with
`sort.Strings`. -/
def getLabelNames (x : List GLabel) : List (List Char) :=
  List.insertionSort lexLe (x.map (fun lab => getString lab.name))

/-- `github.IssueListByRepoOptions` restricted to the fields
`queryToListOptions` can set.  Zero values as in Go: empty strings, nil label
slice (`none`), zero `Since` time. -/
structure ListOpts where
  milestone : List Char := []
  state : List Char := []
  assignee : List Char := []
  creator : List Char := []
  mentioned : List Char := []
  labels : Option (List (List Char)) := none
  sort : List Char := []
  since : Nat := 0
deriving DecidableEq

/-- `strings.Index(f, c)` for a one-character needle: first occurrence. -/
def firstIndexOf (c : Char) : List Char → Option Nat
  | [] => none
  | a :: t => if a = c then some 0 else (firstIndexOf c t).map (· + 1)

/-- Modelled from the spec: `findMilestone` lives in a part of the repository
outside `src/` (the acme integration file); per the spec it resolves a
milestone name to its numeric identifier via the milestone-listing
collaborator, failing when the name matches no open milestone. -/
def findMilestone (milestones : List (List Char × Nat)) (name : List Char) : Option Nat :=
  (milestones.find? (fun m => decide (m.1 = name))).map (fun m => m.2)

/-- The token loop of `queryToListOptions`: process each whitespace-separated
field, splitting it at its first colon and dispatching on the key exactly as
the Go `switch` does.  Every `return` before the final one leaves `ok` false,
modelled as `none`.  The milestone-name resolution collaborator
(`findMilestone`, which is outside `src/`) is the parameter `resolve`. -/
def queryFields (resolve : List Char → Option Nat) :
    List (List Char) → ListOpts → Option ListOpts
  | [], opt => some opt
  | f :: fs, opt =>
    match firstIndexOf ':' f with
    | none => none
    | some i =>
      let key := f.take i
      let val := f.drop (i + 1)
      if key = str "milestone" then
        if opt.milestone ≠ [] ∨ val = [] then none
        else
          match resolve val with
          | none => none
          | some id => queryFields resolve fs { opt with milestone := natToChars id }
      else if key = str "state" then
        if opt.state ≠ [] ∨ val = [] then none
        else queryFields resolve fs { opt with state := val }
      else if key = str "assignee" then
        if opt.assignee ≠ [] ∨ val = [] then none
        else queryFields resolve fs { opt with assignee := val }
      else if key = str "author" then
        if opt.creator ≠ [] ∨ val = [] then none
        else queryFields resolve fs { opt with creator := val }
      else if key = str "mentions" then
        if opt.mentioned ≠ [] ∨ val = [] then none
        else queryFields resolve fs { opt with mentioned := val }
      else if key = str "label" then
        if opt.labels ≠ none ∨ val = [] then none
        else queryFields resolve fs { opt with labels := some (splitComma val) }
      else if key = str "sort" then
        if opt.sort ≠ [] ∨ val = [] then none
        else queryFields resolve fs { opt with sort := val }
      else if key = str "updated" then
        if opt.since ≠ 0 ∨ ¬ (str ">=" <+: val) then none
        else none
      else if key = str "no" then
        if val = str "milestone" then
          if opt.milestone ≠ [] then none
          else queryFields resolve fs { opt with milestone := str "none" }
        else none
      else none

/-- `queryToListOptions` from `issue.go`: fail on any quote character, else
fold the `key:value` fields into a `ListOpts`; `none` models `ok = false`. -/
def queryToListOptions (resolve : List Char → Option Nat) (q : List Char) :
    Option ListOpts :=
  if q.any (fun c => c = '"' || c = Char.ofNat 39) then none
  else queryFields resolve (fields q) {}

/-- `listRepoIssues` from `issue.go`: page through `Issues.ListByRepo` (the
endpoint already carries the `ListOpts`), then, only on the success path,
filter out pull requests (`issue.PullRequestLinks == nil`); on a page error
the accumulated items are returned unfiltered together with the error. -/
def listRepoIssues (ep : Nat → Page GIssue) (fuel : Nat) : Option (List GIssue × Bool) :=
  match fetchPages ep fuel 1 with
  | none => none
  | some (all, true) => some (all, true)
  | some (all, false) => some (all.filter (fun issue => !issue.pullRequestLinks), false)

/-- `searchIssues` from `issue.go`: use the structured listing endpoint when
the query compiles, else page through the free-text search endpoint (whose
query text carries `type:issue`); no client-side pull-request filter on that
path. -/
def searchIssues (resolve : List Char → Option Nat)
    (epList : ListOpts → Nat → Page GIssue) (epSearch : Nat → Page GIssue)
    (q : List Char) (fuel : Nat) : Option (List GIssue × Bool) :=
  match queryToListOptions resolve q with
  | some opt => listRepoIssues (epList opt) fuel
  | none => fetchPages epSearch fuel 1

/-- The query tokens `queryToListOptions` accepts (§4.1 of the spec minus
`updated:`, which the code structurally recognizes but always rejects). -/
inductive QTok where
  | milestone (v : List Char)
  | state (v : List Char)
  | assignee (v : List Char)
  | author (v : List Char)
  | mentions (v : List Char)
  | label (v : List Char)
  | sortKey (v : List Char)
  | noMilestone
deriving DecidableEq

/-- Render a token back to its `key:value` query text. -/
def renderTok : QTok → List Char
  | .milestone v => str "milestone:" ++ v
  | .state v => str "state:" ++ v
  | .assignee v => str "assignee:" ++ v
  | .author v => str "author:" ++ v
  | .mentions v => str "mentions:" ++ v
  | .label v => str "label:" ++ v
  | .sortKey v => str "sort:" ++ v
  | .noMilestone => str "no:milestone"

/-- The literal key of a token (the text before the first colon). -/
def keyStr : QTok → List Char
  | .milestone _ => str "milestone"
  | .state _ => str "state"
  | .assignee _ => str "assignee"
  | .author _ => str "author"
  | .mentions _ => str "mentions"
  | .label _ => str "label"
  | .sortKey _ => str "sort"
  | .noMilestone => str "no"

/-- The `ListOpts` field a token sets.  `milestone:` and `no:milestone` are
distinct keys but share the `Milestone` field. -/
def fieldIdx : QTok → Nat
  | .milestone _ => 0
  | .noMilestone => 0
  | .state _ => 1
  | .assignee _ => 2
  | .author _ => 3
  | .mentions _ => 4
  | .label _ => 5
  | .sortKey _ => 6

/-- Well-formedness of a token: a non-empty value, and for `milestone:` a name
the collaborator resolves. -/
def wfTok (resolve : List Char → Option Nat) : QTok → Prop
  | .milestone v => v ≠ [] ∧ (resolve v).isSome = true
  | .state v => v ≠ []
  | .assignee v => v ≠ []
  | .author v => v ≠ []
  | .mentions v => v ≠ []
  | .label v => v ≠ []
  | .sortKey v => v ≠ []
  | .noMilestone => True

instance (resolve : List Char → Option Nat) (t : QTok) : Decidable (wfTok resolve t) := by
  cases t <;> · rw [wfTok]; infer_instance

/-- The filter field a well-formed token sets, independent of the parsing
code: this is the spec-side reading of "the filter encodes exactly those
key/value pairs" (milestone name resolved to its identifier, `no:milestone`
the sentinel `"none"`, labels split on commas). -/
def encodeTok (resolve : List Char → Option Nat) (opt : ListOpts) : QTok → ListOpts
  | .milestone v => { opt with milestone := natToChars ((resolve v).getD 0) }
  | .state v => { opt with state := v }
  | .assignee v => { opt with assignee := v }
  | .author v => { opt with creator := v }
  | .mentions v => { opt with mentioned := v }
  | .label v => { opt with labels := some (splitComma v) }
  | .sortKey v => { opt with sort := v }
  | .noMilestone => { opt with milestone := str "none" }

/-- The filter a well-formed token list encodes, starting from the zero
options value. -/
def encodeQuery (resolve : List Char → Option Nat) (toks : List QTok) : ListOpts :=
  toks.foldl (encodeTok resolve) {}

/-- The field a token would set is still unset in `opt`. -/
def fieldClear (opt : ListOpts) : QTok → Prop
  | .milestone _ => opt.milestone = []
  | .noMilestone => opt.milestone = []
  | .state _ => opt.state = []
  | .assignee _ => opt.assignee = []
  | .author _ => opt.creator = []
  | .mentions _ => opt.mentioned = []
  | .label _ => opt.labels = none
  | .sortKey _ => opt.sort = []

theorem fieldClear_encode (resolve : List Char → Option Nat) (opt : ListOpts)
    (ht t : QTok) (hclear : fieldClear opt t) (hne : fieldIdx t ≠ fieldIdx ht) :
    fieldClear (encodeTok resolve opt ht) t := by
  cases t <;> cases ht <;> simp_all [fieldClear, encodeTok, fieldIdx]

theorem queryFields_milestone (resolve : List Char → Option Nat)
    (v : List Char) (fs : List (List Char)) (opt : ListOpts) :
    queryFields resolve (renderTok (.milestone v) :: fs) opt =
      if opt.milestone ≠ [] ∨ v = [] then none
      else
        match resolve v with
        | none => none
        | some id => queryFields resolve fs { opt with milestone := natToChars id } := rfl

theorem queryFields_state (resolve : List Char → Option Nat)
    (v : List Char) (fs : List (List Char)) (opt : ListOpts) :
    queryFields resolve (renderTok (.state v) :: fs) opt =
      if opt.state ≠ [] ∨ v = [] then none
      else queryFields resolve fs { opt with state := v } := rfl

theorem queryFields_assignee (resolve : List Char → Option Nat)
    (v : List Char) (fs : List (List Char)) (opt : ListOpts) :
    queryFields resolve (renderTok (.assignee v) :: fs) opt =
      if opt.assignee ≠ [] ∨ v = [] then none
      else queryFields resolve fs { opt with assignee := v } := rfl

theorem queryFields_author (resolve : List Char → Option Nat)
    (v : List Char) (fs : List (List Char)) (opt : ListOpts) :
    queryFields resolve (renderTok (.author v) :: fs) opt =
      if opt.creator ≠ [] ∨ v = [] then none
      else queryFields resolve fs { opt with creator := v } := rfl

theorem queryFields_mentions (resolve : List Char → Option Nat)
    (v : List Char) (fs : List (List Char)) (opt : ListOpts) :
    queryFields resolve (renderTok (.mentions v) :: fs) opt =
      if opt.mentioned ≠ [] ∨ v = [] then none
      else queryFields resolve fs { opt with mentioned := v } := rfl

theorem queryFields_label (resolve : List Char → Option Nat)
    (v : List Char) (fs : List (List Char)) (opt : ListOpts) :
    queryFields resolve (renderTok (.label v) :: fs) opt =
      if opt.labels ≠ none ∨ v = [] then none
      else queryFields resolve fs { opt with labels := some (splitComma v) } := rfl

theorem queryFields_sortKey (resolve : List Char → Option Nat)
    (v : List Char) (fs : List (List Char)) (opt : ListOpts) :
    queryFields resolve (renderTok (.sortKey v) :: fs) opt =
      if opt.sort ≠ [] ∨ v = [] then none
      else queryFields resolve fs { opt with sort := v } := rfl

theorem queryFields_noMilestone (resolve : List Char → Option Nat)
    (fs : List (List Char)) (opt : ListOpts) :
    queryFields resolve (renderTok .noMilestone :: fs) opt =
      if opt.milestone ≠ [] then none
      else queryFields resolve fs { opt with milestone := str "none" } := rfl

theorem queryFields_encode (resolve : List Char → Option Nat) :
    ∀ (toks : List QTok) (opt : ListOpts),
    (∀ t ∈ toks, wfTok resolve t) →
    ((toks.map fieldIdx).Nodup) →
    (∀ t ∈ toks, fieldClear opt t) →
    queryFields resolve (toks.map renderTok) opt =
      some (toks.foldl (encodeTok resolve) opt) := by
  intro toks
  induction toks with
  | nil => intro opt _ _ _; rfl
  | cons t ts ih =>
    intro opt hwf hnodup hclear
    have hwft := hwf t (by simp)
    have hcleart := hclear t (by simp)
    have hnotin : fieldIdx t ∉ ts.map fieldIdx := by
      simp only [List.map_cons, List.nodup_cons] at hnodup
      exact hnodup.1
    have hnodup' : (ts.map fieldIdx).Nodup := by
      simp only [List.map_cons, List.nodup_cons] at hnodup
      exact hnodup.2
    have hclear' : ∀ t' ∈ ts, fieldClear (encodeTok resolve opt t) t' := by
      intro t' ht'
      refine fieldClear_encode resolve opt t t' (hclear t' (by simp [ht'])) ?_
      intro heq
      exact hnotin (heq ▸ List.mem_map_of_mem fieldIdx ht')
    have hwf' : ∀ t' ∈ ts, wfTok resolve t' := fun t' ht' => hwf t' (by simp [ht'])
    have hih := ih (encodeTok resolve opt t) hwf' hnodup' hclear'
    cases t with
    | milestone v =>
      rcases hwft with ⟨hv, hres⟩
      rw [fieldClear] at hcleart
      rcases hresv : resolve v with _ | id
      · rw [hresv] at hres; simp at hres
      · have henc : encodeTok resolve opt (QTok.milestone v) =
            { opt with milestone := natToChars id } := by
          simp [encodeTok, hresv]
        rw [List.map_cons, queryFields_milestone, if_neg (by simp [hcleart, hv]), hresv,
          List.foldl_cons, henc]
        rw [henc] at hih
        exact hih
    | state v =>
      rw [wfTok] at hwft
      rw [fieldClear] at hcleart
      rw [List.map_cons, queryFields_state, if_neg (by simp [hcleart, hwft]),
        List.foldl_cons]
      exact hih
    | assignee v =>
      rw [wfTok] at hwft
      rw [fieldClear] at hcleart
      rw [List.map_cons, queryFields_assignee, if_neg (by simp [hcleart, hwft]),
        List.foldl_cons]
      exact hih
    | author v =>
      rw [wfTok] at hwft
      rw [fieldClear] at hcleart
      rw [List.map_cons, queryFields_author, if_neg (by simp [hcleart, hwft]),
        List.foldl_cons]
      exact hih
    | mentions v =>
      rw [wfTok] at hwft
      rw [fieldClear] at hcleart
      rw [List.map_cons, queryFields_mentions, if_neg (by simp [hcleart, hwft]),
        List.foldl_cons]
      exact hih
    | label v =>
      rw [wfTok] at hwft
      rw [fieldClear] at hcleart
      rw [List.map_cons, queryFields_label, if_neg (by simp [hcleart, hwft]),
        List.foldl_cons]
      exact hih
    | sortKey v =>
      rw [wfTok] at hwft
      rw [fieldClear] at hcleart
      rw [List.map_cons, queryFields_sortKey, if_neg (by simp [hcleart, hwft]),
        List.foldl_cons]
      exact hih
    | noMilestone =>
      rw [fieldClear] at hcleart
      rw [List.map_cons, queryFields_noMilestone, if_neg (by simp [hcleart]),
        List.foldl_cons]
      exact hih

/-- Width of the sort-key timestamp prefix of a timeline entry.  The code
writes `Format(time.RFC3339)`, which for a uniform zone offset is fixed-width
and lexicographically ordered like the instant, up to year 9999; the model
uses `keyWidth` zero-padded decimal digits, ordered like the instant for
instants below `10 ^ keyWidth`. -/
def keyWidth : Nat := 20

/-- `Format(timeFormat)` (`"2006-01-02 15:04:05"`), the human-visible
timestamp inside rendered text, modelled as the decimal instant; only its
injectivity in the instant matters to the claims. -/
def timeFmt (t : Nat) : List Char := natToChars t

/-- `github.IssueComment` restricted to the fields `issue.go` reads. -/
structure GComment where
  user : Option GUser
  createdAt : Option Nat
  body : Option (List Char)
deriving DecidableEq

/-- `ev.Rename` (`From`/`To`; `from` is reserved in Lean). -/
structure GRename where
  fromTitle : Option (List Char)
  toTitle : Option (List Char)
deriving DecidableEq

/-- `github.IssueEvent` restricted to the fields `issue.go` reads.  `label`,
`milestone` and `rename` are dereferenced by the code without nil checks in
their branches, so they are modelled as plain values. -/
structure GEvent where
  actor : Option GUser
  event : Option (List Char)
  createdAt : Option Nat
  commitID : Option (List Char)
  assignee : Option GUser
  label : GLabel
  milestone : GMilestone
  rename : GRename
deriving DecidableEq

/-- `commit.Author`/`commit.Committer` (dereferenced without nil checks). -/
structure GCommitAuthor where
  name : Option (List Char)
  email : Option (List Char)
  date : Option Nat
deriving DecidableEq

/-- `github.Commit` restricted to the fields `issue.go` reads. -/
structure GCommit where
  author : GCommitAuthor
  committer : GCommitAuthor
  message : Option (List Char)
deriving DecidableEq

/-- One comment entry of `printIssue`'s output slice: the RFC3339 sort-key
line followed by the rendered comment text. -/
def renderComment (raw : Bool) (wmax : Nat) (com : GComment) : List Char :=
  padNum keyWidth (getTime com.createdAt) ++ '\n' ::
    (str "\nComment by " ++ getUserLogin com.user ++ str " (" ++
      timeFmt (getTime com.createdAt) ++ str ")\n" ++
      match com.body with
      | none => []
      | some b =>
        if raw then str "\n" ++ b ++ str "\n\n"
        else
          let text := trimSpace b
          if text = [] then []
          else str "\n\t" ++ wrap text (str "\t") wmax ++ str "\n")

/-- The event kinds `printIssue` ignores (`case "mentioned", "subscribed",
"unsubscribed":`). -/
def suppressedKind (e : List Char) : Bool :=
  e = str "mentioned" || e = str "subscribed" || e = str "unsubscribed"

/-- The project event kinds, whose underscores become spaces before falling
through to the default template. -/
def projectKind (e : List Char) : Bool :=
  e = str "added_to_project" || e = str "moved_columns_in_project" ||
    e = str "removed_from_project"

/-- `strings.Replace(event, "_", " ", -1)`. -/
def underscoreToSpace (e : List Char) : List Char :=
  e.map (fun c => if c = '_' then ' ' else c)

/-- The default event template `"\n* %s %s (%s)\n"`. -/
def genericEventLine (actor evName : List Char) (t : Nat) : List Char :=
  str "\n* " ++ actor ++ str " " ++ evName ++ str " (" ++ timeFmt t ++ str ")\n"

/-- The commit metadata block appended to `closed`/`referenced`/`merged`
events when the commit lookup succeeds; a failed lookup renders nothing. -/
def commitDetail (gc : List Char → Option GCommit) (wmax : Nat) (cid : List Char) :
    List Char :=
  match gc cid with
  | none => []
  | some commit =>
    str "\n\tAuthor: " ++ getString commit.author.name ++ str " <" ++
      getString commit.author.email ++ str "> " ++
      timeFmt (getTime commit.author.date) ++
      str "\n\tCommitter: " ++ getString commit.committer.name ++ str " <" ++
      getString commit.committer.email ++ str "> " ++
      timeFmt (getTime commit.committer.date) ++
      str "\n\n\t" ++ wrap (getString commit.message) (str "\t") wmax ++ str "\n"

/-- The visible text of one event entry, after the sort-key line: the `switch
event := getString(ev.Event)` of `printIssue`.  `gc` is the
`client.Git.GetCommit` collaborator. -/
def eventBody (gc : List Char → Option GCommit) (wmax : Nat) (ev : GEvent) : List Char :=
  let event := getString ev.event
  let actor := getUserLogin ev.actor
  let t := getTime ev.createdAt
  if suppressedKind event then []
  else if projectKind event then genericEventLine actor (underscoreToSpace event) t
  else if event = str "closed" || event = str "referenced" || event = str "merged" then
    let id0 := getString ev.commitID
    let idText :=
      if id0 = [] then []
      else str " in commit " ++ (if id0.length > 7 then id0.take 7 else id0)
    str "\n* " ++ actor ++ str " " ++ event ++ idText ++ str " (" ++ timeFmt t ++
      str ")\n" ++ (if id0 = [] then [] else commitDetail gc wmax id0)
  else if event = str "assigned" || event = str "unassigned" then
    str "\n* " ++ actor ++ str " " ++ event ++ str " " ++ getUserLogin ev.assignee ++
      str " (" ++ timeFmt t ++ str ")\n"
  else if event = str "labeled" || event = str "unlabeled" then
    str "\n* " ++ actor ++ str " " ++ event ++ str " " ++ getString ev.label.name ++
      str " (" ++ timeFmt t ++ str ")\n"
  else if event = str "milestoned" || event = str "demilestoned" then
    str "\n* " ++ actor ++ str " " ++
      (if event = str "milestoned" then str "added to milestone"
        else str "removed from milestone") ++
      str " " ++ getString ev.milestone.title ++ str " (" ++ timeFmt t ++ str ")\n"
  else if event = str "renamed" then
    str "\n* " ++ actor ++ str " changed title (" ++ timeFmt t ++ str ")\n  - " ++
      getString ev.rename.fromTitle ++ str "\n  + " ++ getString ev.rename.toTitle ++
      str "\n"
  else genericEventLine actor event t

/-- One event entry of `printIssue`'s output slice: the sort-key line is
written before the `switch`, so suppressed kinds still contribute an entry
whose visible part is empty. -/
def renderEvent (gc : List Char → Option GCommit) (wmax : Nat) (ev : GEvent) : List Char :=
  padNum keyWidth (getTime ev.createdAt) ++ '\n' :: eventBody gc wmax ev

/-- The `output` slice of `printIssue` after `sort.Strings(output)`: comment
entries (in arrival order) followed by event entries, sorted byte-wise on the
full entry text.  `cs` and `evs` are the concatenations of the paginated
comment/event responses. -/
def mergedEntries (gc : List Char → Option GCommit) (raw : Bool) (wmax : Nat)
    (cs : List GComment) (evs : List GEvent) : List (List Char) :=
  List.insertionSort lexLe
    (cs.map (renderComment raw wmax) ++ evs.map (renderEvent gc wmax))

/-- The timeline part of `printIssue`'s output: each sorted entry printed
after stripping everything up to and including the first newline. -/
def printIssueTimeline (gc : List Char → Option GCommit) (raw : Bool) (wmax : Nat)
    (cs : List GComment) (evs : List GEvent) : List Char :=
  ((mergedEntries gc raw wmax cs evs).map stripKey).flatten

/-- The header part of `printIssue`'s output (everything before the comment
loop): `Title:`/`State:`/`Assignee:`, the `Closed:` line only when `ClosedAt`
is non-nil, sorted labels, milestone, URL, the `Reported by` line, and the
optional wrapped body. -/
def printIssueHeader (raw : Bool) (wmax : Nat) (issue : GIssue) : List Char :=
  str "Title: " ++ getString issue.title ++ str "\n" ++
  str "State: " ++ getString issue.state ++ str "\n" ++
  str "Assignee: " ++ getUserLogin issue.assignee ++ str "\n" ++
  (match issue.closedAt with
   | none => []
   | some _ => str "Closed: " ++ timeFmt (getTime issue.closedAt) ++ str "\n") ++
  str "Labels: " ++ joinWith (str " ") (getLabelNames issue.labels) ++ str "\n" ++
  str "Milestone: " ++ getMilestoneTitle issue.milestone ++ str "\n" ++
  str "URL: " ++ getString issue.htmlURL ++ str "\n" ++
  str "\nReported by " ++ getUserLogin issue.user ++ str " (" ++
    timeFmt (getTime issue.createdAt) ++ str ")\n" ++
  (match issue.body with
   | none => []
   | some b =>
     if raw then str "\n" ++ b ++ str "\n\n"
     else
       let text := trimSpace b
       if text = [] then []
       else str "\n\t" ++ wrap text (str "\t") wmax ++ str "\n")

/-- Lookup in the `issueCache.m` map, modelled as an association list where
the most recent entry for a key comes first. -/
def cacheLookup (m : List (Int × GIssue)) (id : Int) : Option GIssue :=
  (m.find? (fun p => decide (p.1 = id))).map (fun p => p.2)

/-- `updateIssueCache` from `issue.go`: ignore issues with number `0` (nil or
zero `Number`), else store the snapshot under its number. -/
def updateIssueCache (m : List (Int × GIssue)) (issue : GIssue) : List (Int × GIssue) :=
  let n := getInt issue.number
  if n = 0 then m else (n, issue) :: m

/-- The fetch loop of `bulkReadIssuesCached`, walking the id list paired with
the snapshot taken under the lock.  Returns the result slice (placeholders
stay `none` on fetch errors), the final cache, the ids actually fetched from
the network (in order; this trace makes "performs a network fetch" an
observable of the model), and the collected error messages (Go joins them
with newlines into one error). -/
def bulkReadLoop (fetch : Int → Except (List Char) GIssue) :
    List (Int × Option GIssue) → List (Int × GIssue) →
    List (Option GIssue) × List (Int × GIssue) × List Int × List (List Char)
  | [], m => ([], m, [], [])
  | (id, cur) :: rest, m =>
    match cur with
    | some issue =>
      let r := bulkReadLoop fetch rest m
      (some issue :: r.1, r.2.1, r.2.2.1, r.2.2.2)
    | none =>
      match fetch id with
      | .error e =>
        let r := bulkReadLoop fetch rest m
        (none :: r.1, r.2.1, id :: r.2.2.1,
          (str "reading #" ++ natToChars id.toNat ++ str ": " ++ e) :: r.2.2.2)
      | .ok issue =>
        let r := bulkReadLoop fetch rest (updateIssueCache m issue)
        (some issue :: r.1, r.2.1, id :: r.2.2.1, r.2.2.2)

/-- `bulkReadIssuesCached` from `issue.go`: snapshot the cached entries for
all ids under the lock, then fetch each still-missing position individually
(duplicate positions are fetched independently, since the check is on the
snapshot slice), recording each fetched issue in the cache. -/
def bulkReadIssuesCached (fetch : Int → Except (List Char) GIssue)
    (m : List (Int × GIssue)) (ids : List Int) :
    List (Option GIssue) × List (Int × GIssue) × List Int × List (List Char) :=
  bulkReadLoop fetch (ids.map (fun id => (id, cacheLookup m id))) m

/-- `issuesByTitle.Less` from `issue.go`: by title, ties by issue number. -/
def issuesByTitleLess (a b : GIssue) : Bool :=
  if getString a.title ≠ getString b.title then
    strLt (getString a.title) (getString b.title)
  else decide (getInt a.number < getInt b.number)

/-- The order `sort.Sort` establishes on the slice: element `a` may precede
`b` exactly when `b` is not `Less` than `a`. -/
def sortRel (a b : GIssue) : Prop := issuesByTitleLess b a = false

instance : DecidableRel sortRel := fun a b => Bool.decEq (issuesByTitleLess b a) false

/-- `sort.Sort(issuesByTitle(all))` as used by `showQuery` and the bulk-edit
path of `main`: a permutation of `all` in which no later issue is `Less` than
an earlier one. -/
def sortIssuesByTitle (all : List GIssue) : List GIssue :=
  List.insertionSort sortRel all

/-- The row listing of `showQuery`'s plain output: `"%v\t%v\n"` per issue,
after sorting. -/
def showQueryRows (all : List GIssue) : List Char :=
  ((sortIssuesByTitle all).map
    (fun issue => natToChars (getInt issue.number).toNat ++ '\t' ::
      getString issue.title ++ str "\n")).flatten

theorem eventBody_suppressed (gc : List Char → Option GCommit) (wmax : Nat) (ev : GEvent)
    (h : suppressedKind (getString ev.event) = true) : eventBody gc wmax ev = [] := by
  rw [eventBody]
  simp [h]

theorem eventBody_ne_nil (gc : List Char → Option GCommit) (wmax : Nat) (ev : GEvent)
    (h : suppressedKind (getString ev.event) = false) : eventBody gc wmax ev ≠ [] := by
  rw [eventBody]
  simp only [h, Bool.false_eq_true, if_false]
  split
  · simp [genericEventLine, str]
  · split
    · simp [str]
    · split
      · simp [str]
      · split
        · simp [str]
        · split
          · simp [str]
          · split
            · simp [str]
            · simp [genericEventLine, str]

theorem renderComment_shape (raw : Bool) (wmax : Nat) (com : GComment) :
    ∃ b, renderComment raw wmax com =
      padNum keyWidth (getTime com.createdAt) ++ '\n' :: b ∧ b ≠ [] := by
  refine ⟨_, rfl, ?_⟩
  simp [str]

theorem renderEvent_shape (gc : List Char → Option GCommit) (wmax : Nat) (ev : GEvent) :
    renderEvent gc wmax ev =
      padNum keyWidth (getTime ev.createdAt) ++ '\n' :: eventBody gc wmax ev := rfl

theorem stripKey_renderComment (raw : Bool) (wmax : Nat) (com : GComment) :
    stripKey (renderComment raw wmax com) ≠ [] := by
  rcases renderComment_shape raw wmax com with ⟨b, hshape, hb⟩
  rw [hshape, stripKey_key _ (padNum_no_nl _ _) b]
  exact hb

theorem stripKey_renderEvent (gc : List Char → Option GCommit) (wmax : Nat) (ev : GEvent) :
    stripKey (renderEvent gc wmax ev) = eventBody gc wmax ev := by
  rw [renderEvent_shape, stripKey_key _ (padNum_no_nl _ _)]

theorem lexLe_key_le (a b : Nat) (u v : List Char) (ha : a < 10 ^ keyWidth)
    (hb : b < 10 ^ keyWidth)
    (h : strLe (padNum keyWidth a ++ '\n' :: u) (padNum keyWidth b ++ '\n' :: v) = true) :
    a ≤ b := by
  have hlen : (padNum keyWidth a).length = (padNum keyWidth b).length := by
    rw [padNum_length, padNum_length]
  exact padNum_le_mono keyWidth a b ha hb
    (strLe_append_of_eq_length _ _ _ _ hlen h)

theorem flatten_map_filter_empty (f : List Char → List Char) (p : List Char → Bool)
    (l : List (List Char)) (h : ∀ s ∈ l, p s = false → f s = []) :
    ((l.filter p).map f).flatten = (l.map f).flatten := by
  induction l with
  | nil => rfl
  | cons a t ih =>
    by_cases hp : p a = true
    · rw [List.filter_cons_of_pos hp, List.map_cons, List.map_cons,
        List.flatten_cons, List.flatten_cons,
        ih (fun s hs hps => h s (List.mem_cons_of_mem a hs) hps)]
    · have hpa : p a = false := Bool.not_eq_true _ ▸ (by simpa using hp)
      rw [List.filter_cons_of_neg (by simp [hpa]), List.map_cons, List.flatten_cons,
        h a (by simp) hpa,
        ih (fun s hs hps => h s (List.mem_cons_of_mem a hs) hps)]
      rfl

theorem insertionSort_filter_comm (p : List Char → Bool) (l : List (List Char)) :
    (List.insertionSort lexLe l).filter p = List.insertionSort lexLe (l.filter p) := by
  refine List.eq_of_perm_of_sorted (r := lexLe) ?_ ?_ ?_
  · exact ((List.perm_insertionSort lexLe l).filter p).trans
      (List.perm_insertionSort lexLe (l.filter p)).symm
  · exact (List.sorted_insertionSort lexLe l).filter p
  · exact List.sorted_insertionSort lexLe (l.filter p)

theorem strLt_ne (x y : List Char) (h : strLt x y = true) : x ≠ y := by
  intro he
  subst he
  rw [strLt_irrefl] at h
  exact absurd h (by simp)

theorem issuesByTitleLess_iff (a b : GIssue) :
    issuesByTitleLess a b = true ↔
      (strLt (getString a.title) (getString b.title) = true ∨
        (getString a.title = getString b.title ∧ getInt a.number < getInt b.number)) := by
  rw [issuesByTitleLess]
  by_cases h : getString a.title = getString b.title
  · simp [h, strLt_irrefl]
  · simp [h]

theorem issuesByTitleLess_irrefl (a : GIssue) : issuesByTitleLess a a = false := by
  rw [issuesByTitleLess]
  simp

theorem issuesByTitleLess_trans (a b c : GIssue) (h1 : issuesByTitleLess a b = true)
    (h2 : issuesByTitleLess b c = true) : issuesByTitleLess a c = true := by
  rcases (issuesByTitleLess_iff a b).mp h1 with hab | ⟨hab, nab⟩ <;>
    rcases (issuesByTitleLess_iff b c).mp h2 with hbc | ⟨hbc, nbc⟩
  · exact (issuesByTitleLess_iff a c).mpr (Or.inl (strLt_trans _ _ _ hab hbc))
  · exact (issuesByTitleLess_iff a c).mpr (Or.inl (hbc ▸ hab))
  · exact (issuesByTitleLess_iff a c).mpr (Or.inl (hab ▸ hbc))
  · exact (issuesByTitleLess_iff a c).mpr (Or.inr ⟨hab.trans hbc, by omega⟩)

theorem issuesByTitleLess_connex (a b : GIssue)
    (h : getInt a.number ≠ getInt b.number) :
    issuesByTitleLess a b = true ∨ issuesByTitleLess b a = true := by
  by_cases heq : getString a.title = getString b.title
  · rcases lt_or_gt_of_ne h with hlt | hlt
    · exact Or.inl ((issuesByTitleLess_iff a b).mpr (Or.inr ⟨heq, hlt⟩))
    · exact Or.inr ((issuesByTitleLess_iff b a).mpr (Or.inr ⟨heq.symm, hlt⟩))
  · rcases strLt_connex _ _ heq with hlt | hlt
    · exact Or.inl ((issuesByTitleLess_iff a b).mpr (Or.inl hlt))
    · exact Or.inr ((issuesByTitleLess_iff b a).mpr (Or.inl hlt))

/-- The ordering the claim describes: ascending by title, ties by ascending
issue number. -/
def titleNumberLe (a b : GIssue) : Prop :=
  strLt (getString a.title) (getString b.title) = true ∨
    (getString a.title = getString b.title ∧ getInt a.number ≤ getInt b.number)

theorem sortRel_iff (a b : GIssue) :
    (issuesByTitleLess b a = false) ↔ titleNumberLe a b := by
  constructor
  · intro h
    have h' : ¬ (strLt (getString b.title) (getString a.title) = true ∨
        (getString b.title = getString a.title ∧ getInt b.number < getInt a.number)) := by
      intro hh
      have h2 := (issuesByTitleLess_iff b a).mpr hh
      rw [h] at h2
      exact absurd h2 (by simp)
    obtain ⟨hnlt, hnand⟩ := not_or.mp h'
    have hbf : strLt (getString b.title) (getString a.title) = false := by
      revert hnlt
      cases strLt (getString b.title) (getString a.title) <;> simp
    by_cases heq : getString a.title = getString b.title
    · refine Or.inr ⟨heq, ?_⟩
      have hn : ¬ getInt b.number < getInt a.number := fun hh => hnand ⟨heq.symm, hh⟩
      omega
    · rcases strLt_connex _ _ heq with hlt | hlt
      · exact Or.inl hlt
      · rw [hbf] at hlt
        exact absurd hlt (by simp)
  · intro h
    cases hba : issuesByTitleLess b a with
    | false => rfl
    | true =>
      exfalso
      rcases (issuesByTitleLess_iff b a).mp hba with hlt | ⟨heq, hlt⟩
      · rcases h with hab | ⟨heq, _⟩
        · rw [strLt_asymm _ _ hab] at hlt
          exact absurd hlt (by simp)
        · exact strLt_ne _ _ hlt heq.symm
      · rcases h with hab | ⟨heq2, hle⟩
        · exact strLt_ne _ _ hab heq.symm
        · omega

theorem titleNumberLe_trans (a b c : GIssue) (h1 : titleNumberLe a b)
    (h2 : titleNumberLe b c) : titleNumberLe a c := by
  rcases h1 with hab | ⟨hab, nab⟩ <;> rcases h2 with hbc | ⟨hbc, nbc⟩
  · exact Or.inl (strLt_trans _ _ _ hab hbc)
  · exact Or.inl (hbc ▸ hab)
  · exact Or.inl (hab ▸ hbc)
  · exact Or.inr ⟨hab.trans hbc, by omega⟩

instance : IsTotal GIssue sortRel :=
  ⟨fun a b => by
    cases hba : issuesByTitleLess b a with
    | false => exact Or.inl hba
    | true =>
      cases hab : issuesByTitleLess a b with
      | false => exact Or.inr hab
      | true =>
        have h2 := issuesByTitleLess_trans a b a hab hba
        rw [issuesByTitleLess_irrefl] at h2
        exact absurd h2 (by simp)⟩

instance : IsTrans GIssue sortRel :=
  ⟨fun a b c h1 h2 => (sortRel_iff a c).mpr
    (titleNumberLe_trans a b c ((sortRel_iff a b).mp h1) ((sortRel_iff b c).mp h2))⟩

/-!
Concrete instances used by the claim counterexamples and witnesses.
-/

/-- An endpoint whose next-page indicator always equals the requested page
(allowed by the model of §6: any `Page` response). -/
def stuckEndpoint : Nat → Page Nat := fun p => { items := [0], nextPage := p, err := false }

/-- A well-behaved two-page endpoint: page 1 returns two items and points to
page 2; page 2 returns one item and reports `NextPage = 0`. -/
def twoPageEndpoint : Nat → Page Nat := fun p =>
  { items := if p = 1 then [10, 11] else if p = 2 then [12] else []
    nextPage := if p = 1 then 2 else 0
    err := false }

/-- An endpoint whose second page fails, still carrying one item on the
failing response. -/
def failingEndpoint : Nat → Page Nat := fun p =>
  { items := if p = 1 then [20] else [21]
    nextPage := if p = 1 then 2 else 0
    err := if p = 1 then false else true }

/-- A concrete issue with the given number, title and pull-request flag; all
optional fields absent. -/
def mkIssue (n : Int) (titleStr : List Char) (pr : Bool) : GIssue :=
  { number := some n, title := some titleStr, state := none, body := none,
    htmlURL := none, assignee := none, user := none, closedAt := none,
    createdAt := none, labels := [], milestone := none, pullRequestLinks := pr }

/-- A single-page issue endpoint that fails while returning a pull request. -/
def prErrorEndpoint : Nat → Page GIssue := fun _ =>
  { items := [mkIssue 1 (str "pr") true], nextPage := 0, err := true }

/-- A successful single-page issue endpoint returning one pull request and
one plain issue. -/
def mixedEndpoint : Nat → Page GIssue := fun _ =>
  { items := [mkIssue 1 (str "pr") true, mkIssue 2 (str "is") false]
    nextPage := 0, err := false }

/-- C1, counterexample: the claim says the page loop halts exactly when the
next-page indicator is less than or equal to the page just requested.
Against an endpoint answering `NextPage = page`, the indicator equals page 1
on the very first response — the claimed halting condition holds — yet the
loop requests page 1 again and again (`requestedPages` grows with the fuel)
and never returns. -/
theorem c1_counterexample :
    (stuckEndpoint 1).nextPage ≤ 1 ∧
    requestedPages stuckEndpoint 3 1 = [1, 1, 1] ∧
    fetchPages stuckEndpoint 100 1 = none := by decide

/-- C1 (amended): for an error-free paginated fetch that completes, the page
loop halts exactly when the response's next-page indicator is strictly less
than the page just requested (`resp.NextPage < page`, not `≤`): the final
requested page satisfies it, every earlier requested page does not, and the
accumulated item count equals the sum of the item counts of every page
fetched up to and including the halting page. -/
theorem c1_pagination_halts_and_counts {α : Type} (ep : Nat → Page α)
    (fuel start : Nat) (items : List α) (e : Bool)
    (hNoErr : ∀ q, (ep q).err = false)
    (h : fetchPages ep fuel start = some (items, e)) :
    e = false ∧ ∃ ps plast, requestedPages ep fuel start = ps ++ [plast] ∧
      (ep plast).nextPage < plast ∧ (∀ q ∈ ps, q ≤ (ep q).nextPage) ∧
      items.length = (((ps ++ [plast]).map (fun q => (ep q).items.length)).sum) :=
  fetchPages_halting ep hNoErr fuel start items e h

/-- C1, witness: the two-page endpoint completes with three items,
`2 + 1` across the two requested pages, and the theorem applies. -/
theorem c1_pagination_halts_and_counts_witness :
    fetchPages twoPageEndpoint 5 1 = some ([10, 11, 12], false) ∧
    (false = false ∧ ∃ ps plast, requestedPages twoPageEndpoint 5 1 = ps ++ [plast] ∧
      (twoPageEndpoint plast).nextPage < plast ∧
      (∀ q ∈ ps, q ≤ (twoPageEndpoint q).nextPage) ∧
      ([10, 11, 12] : List Nat).length =
        (((ps ++ [plast]).map (fun q => (twoPageEndpoint q).items.length)).sum)) :=
  ⟨by decide,
    c1_pagination_halts_and_counts twoPageEndpoint 5 1 [10, 11, 12] false
      (fun _ => rfl) (by decide)⟩

/-- C3, counterexample: the claim says no outcome of an issue listing ever
contains a pull request, including a page failure with partial results.  But
on the error path `listRepoIssues` returns the accumulated items unfiltered
(`return all, err` runs before the pull-request filter), so a failing page
carrying a pull request reaches the caller. -/
theorem c3_counterexample :
    listRepoIssues prErrorEndpoint 5 = some ([mkIssue 1 (str "pr") true], true) ∧
    (mkIssue 1 (str "pr") true).pullRequestLinks = true := by decide

/-- C3 (amended): on the success path `listRepoIssues` returns no item with
pull-request links — the filter runs only after the page loop completes
without error (and `searchIssues`'s free-text path applies no client-side
filter at all, relying on the `type:issue` query text). -/
theorem c3_success_filters_pull_requests (ep : Nat → Page GIssue) (fuel : Nat)
    (all : List GIssue) (h : listRepoIssues ep fuel = some (all, false)) :
    ∀ issue ∈ all, issue.pullRequestLinks = false := by
  intro issue hmem
  rw [listRepoIssues] at h
  split at h
  · exact absurd h (by simp)
  · simp at h
  · next acc heq =>
    injection h with h
    injection h with h1 _
    subst h1
    have := List.of_mem_filter hmem
    simpa using this

/-- C3, witness: a successful page mixing a pull request and a plain issue
yields only the plain issue, and the theorem applies. -/
theorem c3_success_filters_pull_requests_witness :
    listRepoIssues mixedEndpoint 5 = some ([mkIssue 2 (str "is") false], false) ∧
    (∀ issue ∈ [mkIssue 2 (str "is") false], issue.pullRequestLinks = false) :=
  ⟨by decide, c3_success_filters_pull_requests mixedEndpoint 5 _ (by decide)⟩

/-- C8 (confirmed): when a page call fails, the loop returns the error
together with every item accumulated before and from the failing call: the
requested pages end at the first erroring page, and the returned sequence is
the concatenation of the item lists of all requested pages including the
failing one.  `listRepoIssues` passes this partial sequence through unchanged
alongside the error. -/
theorem c8_partial_results_with_error {α : Type} (ep : Nat → Page α)
    (fuel start : Nat) (items : List α)
    (h : fetchPages ep fuel start = some (items, true)) :
    (∃ ps plast, requestedPages ep fuel start = ps ++ [plast] ∧
      (ep plast).err = true ∧
      (∀ q ∈ ps, (ep q).err = false ∧ q ≤ (ep q).nextPage) ∧
      items = (((ps ++ [plast]).map (fun q => (ep q).items)).flatten)) ∧
    (∀ (ep' : Nat → Page GIssue) (fuel' : Nat) (all : List GIssue),
      fetchPages ep' fuel' 1 = some (all, true) →
      listRepoIssues ep' fuel' = some (all, true)) := by
  refine ⟨fetchPages_error_keeps_items ep fuel start items h, ?_⟩
  intro ep' fuel' all h'
  rw [listRepoIssues, h']

/-- C8, witness: the endpoint failing on page 2 returns both pages' items
(`[20, 21]`) together with the error, and the theorem applies. -/
theorem c8_partial_results_with_error_witness :
    fetchPages failingEndpoint 5 1 = some ([20, 21], true) ∧
    ((∃ ps plast, requestedPages failingEndpoint 5 1 = ps ++ [plast] ∧
      (failingEndpoint plast).err = true ∧
      (∀ q ∈ ps, (failingEndpoint q).err = false ∧ q ≤ (failingEndpoint q).nextPage) ∧
      ([20, 21] : List Nat) =
        (((ps ++ [plast]).map (fun q => (failingEndpoint q).items)).flatten)) ∧
    (∀ (ep' : Nat → Page GIssue) (fuel' : Nat) (all : List GIssue),
      fetchPages ep' fuel' 1 = some (all, true) →
      listRepoIssues ep' fuel' = some (all, true))) :=
  ⟨by decide, c8_partial_results_with_error failingEndpoint 5 1 [20, 21] (by decide)⟩

/-- C2, counterexample: the claim's own example violates the claimed width
bound: `wrap("aaaa bbbb cccc", "> ")` at maximum 9 produces the line
`"> bbbb cccc"` of length 11, because the continuation prefix is prepended
after the width check. -/
theorem c2_counterexample :
    ¬ (∀ l ∈ splitNL (wrap (str "aaaa bbbb cccc") (str "> ") 9), l.length ≤ 9) := by
  decide

/-- C2, witness: on the claim's example the theorem applies, and the output
is exactly `"aaaa \n> bbbb cccc"`. -/
theorem c2_wrap_width_with_prefix_witness :
    wrap (str "aaaa bbbb cccc") (str "> ") 9 = str "aaaa \n> bbbb cccc" ∧
    (∀ l ∈ splitNL (wrap (str "aaaa bbbb cccc") (str "> ") 9),
      l.length ≤ 9 ∨ ∃ cch, l = str "> " ++ cch ∧ cch.length ≤ 9) :=
  ⟨by decide,
    c2_wrap_width_with_prefix (str "aaaa bbbb cccc") (str "> ") 9 (by decide) (by decide)⟩

theorem mergedEntries_shape (gc : List Char → Option GCommit) (raw : Bool) (wmax : Nat)
    (cs : List GComment) (evs : List GEvent)
    (hcs : ∀ c ∈ cs, getTime c.createdAt < 10 ^ keyWidth)
    (hevs : ∀ e ∈ evs, getTime e.createdAt < 10 ^ keyWidth) :
    ∀ x ∈ cs.map (renderComment raw wmax) ++ evs.map (renderEvent gc wmax),
      ∃ tn b, x = padNum keyWidth tn ++ '\n' :: b ∧ tn < 10 ^ keyWidth := by
  intro x hx
  rcases List.mem_append.mp hx with hx | hx
  · rcases List.mem_map.mp hx with ⟨c, hc, rfl⟩
    rcases renderComment_shape raw wmax c with ⟨b, hb, _⟩
    exact ⟨getTime c.createdAt, b, hb, hcs c hc⟩
  · rcases List.mem_map.mp hx with ⟨ev, hev, rfl⟩
    exact ⟨getTime ev.createdAt, eventBody gc wmax ev,
      renderEvent_shape gc wmax ev, hevs ev hev⟩

/-- C4 (amended): the merged timeline transcript lists all comment and event
entries in ascending order of their original creation timestamps (read back
from the sort-key prefix by `readKey`), provided every timestamp fits the
fixed-width sortable prefix.  Entries with equal timestamps are ordered
byte-wise on their full rendered text — not by original arrival order, since
`sort.Strings` compares whole entries (see `c4_counterexample`). -/
theorem c4_timeline_ascending_by_time (gc : List Char → Option GCommit)
    (raw : Bool) (wmax : Nat) (cs : List GComment) (evs : List GEvent)
    (hcs : ∀ c ∈ cs, getTime c.createdAt < 10 ^ keyWidth)
    (hevs : ∀ e ∈ evs, getTime e.createdAt < 10 ^ keyWidth) :
    List.Pairwise (fun s t => readKey keyWidth s ≤ readKey keyWidth t)
      (mergedEntries gc raw wmax cs evs) := by
  have hsorted : List.Sorted lexLe (mergedEntries gc raw wmax cs evs) :=
    List.sorted_insertionSort lexLe _
  refine hsorted.imp_of_mem ?_
  intro s t hs ht hle
  have hperm := List.perm_insertionSort lexLe
    (cs.map (renderComment raw wmax) ++ evs.map (renderEvent gc wmax))
  have hsL := hperm.mem_iff.mp hs
  have htL := hperm.mem_iff.mp ht
  rcases mergedEntries_shape gc raw wmax cs evs hcs hevs s hsL with ⟨ts, bs, hseq, hts⟩
  rcases mergedEntries_shape gc raw wmax cs evs hcs hevs t htL with ⟨tt, bt, hteq, htt⟩
  rw [hseq, hteq, readKey_padNum _ _ _ hts, readKey_padNum _ _ _ htt]
  rw [hseq, hteq] at hle
  exact lexLe_key_le ts tt bs bt hts htt hle

/-- Whether a timeline entry still shows text after its sort-key line is
stripped. -/
def hasVisibleText (s : List Char) : Bool := !(stripKey s).isEmpty

/-- C6 (confirmed): events of kind `mentioned`, `subscribed` or
`unsubscribed` contribute no visible text to the merged timeline transcript:
the transcript equals the one computed without them. -/
theorem c6_suppressed_events_invisible (gc : List Char → Option GCommit)
    (raw : Bool) (wmax : Nat) (cs : List GComment) (evs : List GEvent) :
    printIssueTimeline gc raw wmax cs evs =
      printIssueTimeline gc raw wmax cs
        (evs.filter (fun e => !suppressedKind (getString e.event))) := by
  rw [printIssueTimeline, printIssueTimeline, mergedEntries, mergedEntries]
  have h1 : ∀ l : List (List Char),
      (((List.insertionSort lexLe l).filter hasVisibleText).map stripKey).flatten =
        ((List.insertionSort lexLe l).map stripKey).flatten := by
    intro l
    refine flatten_map_filter_empty stripKey hasVisibleText _ ?_
    intro s _ hq
    rw [hasVisibleText] at hq
    cases h2 : stripKey s with
    | nil => rfl
    | cons a t => rw [h2] at hq; simp at hq
  have h3 : (cs.map (renderComment raw wmax) ++ evs.map (renderEvent gc wmax)).filter
        hasVisibleText =
      cs.map (renderComment raw wmax) ++
        (evs.filter (fun e => !suppressedKind (getString e.event))).map
          (renderEvent gc wmax) := by
    rw [List.filter_append]
    congr 1
    · rw [List.filter_eq_self]
      intro a ha
      rcases List.mem_map.mp ha with ⟨c, _, rfl⟩
      rw [hasVisibleText]
      cases h2 : stripKey (renderComment raw wmax c) with
      | nil => exact absurd h2 (stripKey_renderComment raw wmax c)
      | cons x xs => simp
    · rw [List.filter_map]
      congr 1
      apply List.filter_congr
      intro e _
      simp only [Function.comp_apply, hasVisibleText, stripKey_renderEvent]
      cases hsk : suppressedKind (getString e.event) with
      | false =>
        have hne := eventBody_ne_nil gc wmax e hsk
        cases hb : eventBody gc wmax e with
        | nil => exact absurd hb hne
        | cons x xs => simp
      | true => rw [eventBody_suppressed gc wmax e hsk]; simp
  rw [← h1, insertionSort_filter_comm, h3]

/-- A commit-lookup collaborator that always fails (irrelevant to comments). -/
def gcNone : List Char → Option GCommit := fun _ => none

/-- A comment by `zed` at instant 5, arriving first. -/
def comZed : GComment :=
  { user := some { login := some (str "zed") }, createdAt := some 5, body := none }

/-- A comment by `alice` at instant 5, arriving second. -/
def comAlice : GComment :=
  { user := some { login := some (str "alice") }, createdAt := some 5, body := none }

/-- C4, counterexample: two comments share the timestamp 5, `zed`'s arriving
before `alice`'s; the claim says ties keep arrival order, but the merge sorts
whole rendered entries byte-wise, so `alice`'s distinct entry overtakes
`zed`'s. -/
theorem c4_counterexample :
    getTime comZed.createdAt = getTime comAlice.createdAt ∧
    mergedEntries gcNone false 70 [comZed, comAlice] [] =
      [renderComment false 70 comAlice, renderComment false 70 comZed] ∧
    renderComment false 70 comAlice ≠ renderComment false 70 comZed := by decide

/-- A comment at instant 1. -/
def comT1 : GComment :=
  { user := some { login := some (str "u1") }, createdAt := some 1, body := none }

/-- A comment at instant 3. -/
def comT3 : GComment :=
  { user := some { login := some (str "u3") }, createdAt := some 3, body := none }

/-- A `closed` event at instant 2, with no commit attached. -/
def evT2 : GEvent :=
  { actor := some { login := some (str "u2") }, event := some (str "closed")
    createdAt := some 2, commitID := none, assignee := none
    label := { name := none }, milestone := { title := none }
    rename := { fromTitle := none, toTitle := none } }

/-- C4, witness: for comments at instants 1 and 3 and an event at instant 2,
the theorem applies, and the merged order is comment(1), event(2),
comment(3). -/
theorem c4_timeline_ascending_by_time_witness :
    List.Pairwise (fun s t => readKey keyWidth s ≤ readKey keyWidth t)
      (mergedEntries gcNone false 70 [comT1, comT3] [evT2]) ∧
    mergedEntries gcNone false 70 [comT1, comT3] [evT2] =
      [renderComment false 70 comT1, renderEvent gcNone 70 evT2,
        renderComment false 70 comT3] :=
  ⟨c4_timeline_ascending_by_time gcNone false 70 [comT1, comT3] [evT2]
      (by decide) (by decide),
    by decide⟩

/-- A milestone resolver knowing only `Go1.5 ↦ 42` (the spec's §8 scenario);
`findMilestone [(str "Go1.5", 42)]` behaves identically. -/
def resolveGo15 : List Char → Option Nat := fun v =>
  if v = str "Go1.5" then some 42 else none

/-- C5, counterexample: in `"milestone:Go1.5 no:milestone"` every
whitespace-separated token is a recognized `key:value` pair with a non-empty
value (and a resolvable milestone name), and no key occurs twice — the keys
are `milestone` and `no` — yet compilation fails, because both tokens set the
`Milestone` field and the second finds it already set. -/
theorem c5_counterexample :
    fields (str "milestone:Go1.5 no:milestone") =
      [QTok.milestone (str "Go1.5"), QTok.noMilestone].map renderTok ∧
    (str "milestone:Go1.5 no:milestone").any
      (fun c => c = '"' || c = Char.ofNat 39) = false ∧
    (∀ t ∈ [QTok.milestone (str "Go1.5"), QTok.noMilestone], wfTok resolveGo15 t) ∧
    ([QTok.milestone (str "Go1.5"), QTok.noMilestone].map keyStr).Nodup ∧
    queryToListOptions resolveGo15 (str "milestone:Go1.5 no:milestone") = none := by
  decide

/-- C5 (amended): for every query without quote characters whose
whitespace-separated fields are accepted `key:value` tokens with non-empty
values — `milestone:` (with a name the collaborator resolves), `state:`,
`assignee:`, `author:`, `mentions:`, `label:`, `sort:`, or `no:milestone` —
no two of which set the same filter field (so in particular `milestone:` and
`no:milestone` are not both present, see `c5_counterexample`), compilation
returns ok with a filter encoding exactly those key/value pairs: the
milestone name resolved to its decimal identifier, `no:milestone` the
sentinel `"none"`, and `label:` split on commas. -/
theorem c5_query_compiles (resolve : List Char → Option Nat) (q : List Char)
    (toks : List QTok)
    (hquote : q.any (fun c => c = '"' || c = Char.ofNat 39) = false)
    (hfields : fields q = toks.map renderTok)
    (hwf : ∀ t ∈ toks, wfTok resolve t)
    (hnodup : (toks.map fieldIdx).Nodup) :
    queryToListOptions resolve q = some (encodeQuery resolve toks) := by
  rw [queryToListOptions, if_neg (by simp [hquote]), hfields]
  exact queryFields_encode resolve toks {} hwf hnodup
    (fun t _ => by cases t <;> exact rfl)

/-- C5, witness: `"milestone:Go1.5 state:open"` with milestone `Go1.5 ↦ 42`
compiles via the theorem, and the encoded filter is exactly
`{Milestone: "42", State: "open"}`. -/
theorem c5_query_compiles_witness :
    queryToListOptions resolveGo15 (str "milestone:Go1.5 state:open") =
      some (encodeQuery resolveGo15
        [QTok.milestone (str "Go1.5"), QTok.state (str "open")]) ∧
    encodeQuery resolveGo15 [QTok.milestone (str "Go1.5"), QTok.state (str "open")] =
      { milestone := str "42", state := str "open" } :=
  ⟨c5_query_compiles resolveGo15 _ _ (by decide) (by decide) (by decide) (by decide),
    by decide⟩

/-- C7 (confirmed): a bulk read of identifiers `[5, 5, 7]` with issue 5
cached and 7 uncached performs exactly one network fetch — for 7 — and
returns three entries in request order whose first two are the identical
cached snapshot of issue 5; the fetched issue is recorded in the cache; no
error is collected. -/
theorem c7_bulk_read_cached (fetch : Int → Except (List Char) GIssue)
    (iss5 iss7 : GIssue) (h7 : fetch 7 = .ok iss7) :
    bulkReadIssuesCached fetch [(5, iss5)] [5, 5, 7] =
      ([some iss5, some iss5, some iss7],
        updateIssueCache [(5, iss5)] iss7, [7], []) := by
  rw [bulkReadIssuesCached]
  simp [bulkReadLoop, cacheLookup, h7, List.find?]

/-- A concrete cached snapshot of issue 5. -/
def issFive : GIssue := mkIssue 5 (str "five") false

/-- A concrete snapshot of issue 7, obtainable only over the network. -/
def issSeven : GIssue := mkIssue 7 (str "seven") false

/-- A tracker that knows only issue 7. -/
def fetchSeven : Int → Except (List Char) GIssue := fun id =>
  if id = 7 then .ok issSeven else .error (str "not found")

/-- C7, witness: with the concrete tracker the theorem applies. -/
theorem c7_bulk_read_cached_witness :
    fetchSeven 7 = .ok issSeven ∧
    bulkReadIssuesCached fetchSeven [(5, issFive)] [5, 5, 7] =
      ([some issFive, some issFive, some issSeven],
        updateIssueCache [(5, issFive)] issSeven, [7], []) :=
  ⟨rfl, c7_bulk_read_cached fetchSeven issFive issSeven rfl⟩

/-- An issue with every optional field absent. -/
def emptyIssue : GIssue :=
  { number := none, title := none, state := none, body := none, htmlURL := none,
    assignee := none, user := none, closedAt := none, createdAt := none,
    labels := [], milestone := none, pullRequestLinks := false }

/-- C9 (confirmed): every optional-field accessor is total with its
documented default (`getInt nil = 0`, `getString nil = ""`,
`getUserLogin nil = ""` also for a user without login, `getTime nil` = the
zero time, `getMilestoneTitle nil = ""` also for a milestone without title),
and rendering the header of an issue with every optional field absent
produces exactly the empty/default fields — no absent value is ever
dereferenced. -/
theorem c9_accessor_defaults :
    getInt none = 0 ∧ getString none = [] ∧ getUserLogin none = [] ∧
    getUserLogin (some { login := none }) = [] ∧ getTime none = 0 ∧
    getMilestoneTitle none = [] ∧ getMilestoneTitle (some { title := none }) = [] ∧
    printIssueHeader false 70 emptyIssue =
      str "Title: \nState: \nAssignee: \nLabels: \nMilestone: \nURL: \n\nReported by  (0)\n" := by
  decide

/-- C10 (confirmed): every multi-issue result is passed through
`sort.Sort(issuesByTitle(...))` (the query table and JSON list via
`showQuery`, the bulk-edit set in `main`), whose output is a permutation of
the input sorted ascending by title with ties by ascending issue number; the
comparison is irreflexive, transitive, and total on issues with distinct
numbers (exactly one of `Less a b`, `Less b a` holds there). -/
theorem c10_results_sorted_by_title (all : List GIssue) :
    (sortIssuesByTitle all).Perm all ∧
    List.Pairwise titleNumberLe (sortIssuesByTitle all) ∧
    (∀ a, issuesByTitleLess a a = false) ∧
    (∀ a b c, issuesByTitleLess a b = true → issuesByTitleLess b c = true →
      issuesByTitleLess a c = true) ∧
    (∀ a b, getInt a.number ≠ getInt b.number →
      (issuesByTitleLess a b = true ↔ issuesByTitleLess b a = false)) := by
  refine ⟨List.perm_insertionSort sortRel all, ?_,
    issuesByTitleLess_irrefl, issuesByTitleLess_trans, ?_⟩
  · exact (List.sorted_insertionSort sortRel all).imp
      (fun {a b} h => (sortRel_iff a b).mp h)
  · intro a b hne
    constructor
    · intro h
      cases hba : issuesByTitleLess b a with
      | false => rfl
      | true =>
        have h2 := issuesByTitleLess_trans a b a h hba
        rw [issuesByTitleLess_irrefl] at h2
        exact absurd h2 (by simp)
    · intro h
      rcases issuesByTitleLess_connex a b hne with hab | hba
      · exact hab
      · rw [h] at hba
        exact absurd hba (by simp)

/-- An issue titled `b`, number 2. -/
def issB2 : GIssue := mkIssue 2 (str "b") false

/-- An issue titled `a`, number 1. -/
def issA1 : GIssue := mkIssue 1 (str "a") false

/-- An issue titled `a`, number 3. -/
def issA3 : GIssue := mkIssue 3 (str "a") false

/-- C10, witness: the theorem applies to a concrete list, whose sorted order
is title `a` number 1, title `a` number 3, title `b` number 2. -/
theorem c10_results_sorted_by_title_witness :
    sortIssuesByTitle [issB2, issA1, issA3] = [issA1, issA3, issB2] ∧
    List.Pairwise titleNumberLe (sortIssuesByTitle [issB2, issA1, issA3]) ∧
    getInt issB2.number ≠ getInt issA1.number ∧
    (issuesByTitleLess issB2 issA1 = true ↔ issuesByTitleLess issA1 issB2 = false) :=
  ⟨by decide, (c10_results_sorted_by_title [issB2, issA1, issA3]).2.1,
    by decide,
    (c10_results_sorted_by_title [issB2, issA1, issA3]).2.2.2.2 issB2 issA1 (by decide)⟩
